import Mathlib

/-!
Verification of the wikipedia-to-neo4j crawler and visualization backend.

The development shallowly embeds the two program files:
* `main.py` — the Flask endpoints: `/graph` (clamped limit, link-budget
  split, node/edge assembly with dedup and defensive truncation),
  `/shortest_path` assembly, and the guarded custom-query pass-through.
* `populate_db.py` — the breadth-first crawler `populate_database`
  (FIFO frontier of (title, depth) pairs, visited set keyed by the
  canonical returned title, merge operations against the store).

Machine integers are modelled as `Int`/`Nat`; neo4j node identities as
`Nat`; the external page source as a function `String → Option Fetched`;
store writes as an explicit list of `DbOp` records mirroring the Cypher
text that the code sends.
-/

/-! ## Limit clamping and link budgets (`main.py` lines 51-60)

`usedLimit` is `limit = max(10, min(200, limit))`;
`outgoingLimit` is `outgoing_limit = min(limit // 2, limit - 1)`;
`incomingLimit` is `incoming_limit = limit - outgoing_limit - 1`.
Python `//` is floor division; it agrees with Lean `Int` division here
because `usedLimit` is always at least 10, and division only ever happens
after the clamp in the code. -/

def usedLimit (requested : Int) : Int := max 10 (min 200 requested)

def outgoingLimit (requested : Int) : Int :=
  min (usedLimit requested / 2) (usedLimit requested - 1)

def incomingLimit (requested : Int) : Int :=
  usedLimit requested - outgoingLimit requested - 1

/-! ## Visualization graph data model (`main.py` lines 73-99)

A `StoreNode` is what a neo4j query row hands back for one node: the
store-assigned integer id (`node.id`) and the `title` property.  A
`StorePage` additionally carries the optional `url` property, which is
what distinguishes a resolved page from a pending one. -/

structure StoreNode where
  id : Nat
  title : String
deriving DecidableEq

structure StorePage where
  id : Nat
  title : String
  url : Option String
deriving DecidableEq

structure VisNode where
  id : Nat
  label : String
  group : Nat
deriving DecidableEq

structure VisEdge where
  fromId : Nat
  toId : Nat
deriving DecidableEq

structure VisGraph where
  nodes : List VisNode
  edges : List VisEdge
deriving DecidableEq

/-- The mutable triple `(nodes, node_ids, edges)` that `get_graph_data`
threads through its two candidate loops. -/
structure BuildState where
  nodes : List VisNode
  nodeIds : List Nat
  edges : List VisEdge
deriving DecidableEq

/-- One candidate loop of `get_graph_data` (lines 80-85 for outgoing with
`group = 2`, lines 86-91 for incoming with `group = 3`).  A `none` entry
is the Python `if node:` guard failing: it contributes neither a node nor
an edge.  A `some n` entry adds the node only when its id is new, and
always adds the edge (center→n when `outDir`, n→center otherwise). -/
def addCandidates (mainId group : Nat) (outDir : Bool) :
    List (Option StoreNode) → BuildState → BuildState
  | [], st => st
  | none :: rest, st => addCandidates mainId group outDir rest st
  | some n :: rest, st =>
      let st1 :=
        if n.id ∈ st.nodeIds then st
        else { st with nodes := st.nodes ++ [⟨n.id, n.title, group⟩],
                       nodeIds := st.nodeIds ++ [n.id] }
      let e := if outDir then VisEdge.mk mainId n.id else VisEdge.mk n.id mainId
      addCandidates mainId group outDir rest { st1 with edges := st1.edges ++ [e] }

/-- Lines 73-91: start from empty lists, add the center node (the
`main_node.id not in node_ids` test is against the freshly emptied set,
kept here for fidelity), then run the outgoing loop and the incoming
loop. -/
def buildAll (mainNode : StoreNode) (outgoing incoming : List (Option StoreNode)) :
    BuildState :=
  let st0 : BuildState := { nodes := [], nodeIds := [], edges := [] }
  let st1 :=
    if mainNode.id ∈ st0.nodeIds then st0
    else { st0 with nodes := st0.nodes ++ [⟨mainNode.id, mainNode.title, 1⟩],
                    nodeIds := st0.nodeIds ++ [mainNode.id] }
  let st2 := addCandidates mainNode.id 2 true outgoing st1
  addCandidates mainNode.id 3 false incoming st2

/-- Lines 93-99: the defensive final check.  If the built node list is
longer than `limit`, truncate the nodes to `limit` first, rebuild the id
set from the survivors, and only then drop every edge with a missing
endpoint. -/
def assembleGraph (mainNode : StoreNode) (outgoing incoming : List (Option StoreNode))
    (limit : Nat) : VisGraph :=
  let st := buildAll mainNode outgoing incoming
  if limit < st.nodes.length then
    let kept := st.nodes.take limit
    let keptIds := kept.map (fun v => v.id)
    { nodes := kept,
      edges := st.edges.filter (fun e => decide (e.fromId ∈ keptIds ∧ e.toId ∈ keptIds)) }
  else
    { nodes := st.nodes, edges := st.edges }

/-! ## The `/graph` endpoint against a store snapshot (`main.py` lines 46-99)

The store is a list of pages plus a list of `LINKS_TO` edges between
store ids.  `MATCH (p:Page {title: $page_title})` matches any node whose
`title` equals the parameter — whether or not `url` is set. -/

def pageByTitle (pages : List StorePage) (t : String) : Option StorePage :=
  pages.find? (fun p => p.title == t)

def nodeById (pages : List StorePage) (nid : Nat) : Option StoreNode :=
  (pages.find? (fun p => p.id == nid)).map (fun p => ⟨p.id, p.title⟩)

/-- `collect(DISTINCT outgoing)`: the distinct targets of `LINKS_TO` edges
leaving `pid`, resolved to store nodes. -/
def outgoingNeighbors (pages : List StorePage) (links : List (Nat × Nat)) (pid : Nat) :
    List StoreNode :=
  (((links.filter (fun l => l.1 == pid)).map (fun l => l.2)).dedup).filterMap (nodeById pages)

/-- `collect(DISTINCT incoming)`: the distinct sources of `LINKS_TO` edges
entering `pid`, resolved to store nodes. -/
def incomingNeighbors (pages : List StorePage) (links : List (Nat × Nat)) (pid : Nat) :
    List StoreNode :=
  (((links.filter (fun l => l.2 == pid)).map (fun l => l.1)).dedup).filterMap (nodeById pages)

/-- The `/graph` endpoint.  `error 400` is the missing-`page` abort,
`error 404` the `if not result: abort(404, "Page not found")` branch;
`[..$outgoing_limit]` / `[..$incoming_limit]` are the query-layer budget
truncations. -/
def get_graph_data (pages : List StorePage) (links : List (Nat × Nat))
    (page : String) (requestedLimit : Int) : Except Nat VisGraph :=
  if page = "" then Except.error 400
  else
    match pageByTitle pages page with
    | none => Except.error 404
    | some p =>
        let outs := (outgoingNeighbors pages links p.id).take (outgoingLimit requestedLimit).toNat
        let ins := (incomingNeighbors pages links p.id).take (incomingLimit requestedLimit).toNat
        Except.ok (assembleGraph ⟨p.id, p.title⟩ (outs.map some) (ins.map some)
          (usedLimit requestedLimit).toNat)

/-! ## Shortest-path assembly (`main.py` lines 128-137)

`ns` is `nodes(path)`, `rs` is `relationships(path)` as
(start-node-id, end-node-id) pairs. -/

/-- The node loop of `shortest_path`: dedup by id; group 1 when the
node's own title equals the requested source or target, group 2
otherwise. -/
def addPathNodes (source target : String) :
    List StoreNode → List VisNode → List Nat → List VisNode
  | [], nodes, _ => nodes
  | n :: rest, nodes, ids =>
      if n.id ∈ ids then addPathNodes source target rest nodes ids
      else
        addPathNodes source target rest
          (nodes ++ [⟨n.id, n.title, if n.title = source ∨ n.title = target then 1 else 2⟩])
          (ids ++ [n.id])

/-- Lines 128-137: nodes from the node loop, one `{from, to}` edge per
relationship of the path, in order, with no dedup and no endpoint check. -/
def shortest_path_graph (source target : String) (ns : List StoreNode)
    (rs : List (Nat × Nat)) : VisGraph :=
  { nodes := addPathNodes source target ns [] [],
    edges := rs.map (fun r => ⟨r.1, r.2⟩) }

/-! ## Guarded custom-query pass-through (`main.py` lines 298-319)

String operations are modelled on the character list underlying the
string: `toUpperStr` is Python `str.upper` (ASCII case mapping suffices
for the keywords involved), `stripStr` is `str.strip` (whitespace from
both ends), `startsWithStr` is `str.startswith`. -/

def toUpperStr (s : String) : String := ⟨s.data.map Char.toUpper⟩

def stripStr (s : String) : String :=
  ⟨((s.data.dropWhile Char.isWhitespace).reverse.dropWhile Char.isWhitespace).reverse⟩

def startsWithStr (s p : String) : Bool := p.data.isPrefixOf s.data

/-- `cypher.upper().strip().startswith(('MATCH', 'WITH', 'RETURN', 'OPTIONAL'))`. -/
def readOnlyStart (cypher : String) : Bool :=
  let c := stripStr (toUpperStr cypher)
  startsWithStr c "MATCH" || startsWithStr c "WITH" || startsWithStr c "RETURN" ||
    startsWithStr c "OPTIONAL"

/-- The `/query/execute_custom` guard path: 400 for a missing parameter,
400 for a query that fails the read-only check, and only otherwise is the
query text handed to the store (`Except.ok` carries exactly the text that
`session.run` would receive). -/
def execute_custom_query (cypher : String) : Except Nat String :=
  if cypher = "" then Except.error 400
  else if readOnlyStart cypher then Except.ok cypher
  else Except.error 400

/-! ## The crawler (`populate_db.py` lines 70-141)

`Fetched` is the triple returned by `get_in_text_internal_links`: the
canonical page title, the sorted in-text link titles, and the page URL.
A fetch either returns it or raises `ValueError` (`none` here).

`DbOp` records each Cypher write the loop body issues, with `mergePage`
carrying the list of `SET` clauses from the query text — the code's merge
is `MERGE (p:Page {title: $title}) SET p.url = $url`, so the property
list it produces is `[("url", url)]`. -/

structure Fetched where
  realTitle : String
  links : List String
  url : String
deriving DecidableEq

inductive DbOp where
  | mergePage (title : String) (props : List (String × String))
  | mergeAlias (source target : String)
  | mergeLink (source target : String)
deriving DecidableEq

structure CrawlState where
  queue : List (String × Nat)
  visited : List String
  ops : List DbOp
  fetched : List String
deriving DecidableEq

/-- One iteration of the `while queue:` loop of `populate_database`:
pop the front `(page_title, depth)`; skip when visited or too deep; on
fetch failure log-and-continue; on success mark the canonical returned
title visited, merge the canonical page (url only), merge the requested
page and an alias edge when the titles differ, then for each link enqueue
`(link, depth + 1)` when not visited and merge a `LINKS_TO` edge
unconditionally.  `fetched` records every title actually passed to the
page source. -/
def crawlStep (fetch : String → Option Fetched) (maxDepth : Nat) (s : CrawlState) :
    CrawlState :=
  match s.queue with
  | [] => s
  | (title, depth) :: rest =>
      if title ∈ s.visited ∨ maxDepth < depth then
        { s with queue := rest }
      else
        match fetch title with
        | none => { s with queue := rest, fetched := s.fetched ++ [title] }
        | some f =>
            let visited1 := s.visited.insert f.realTitle
            let aliasOps :=
              if title = f.realTitle then []
              else [DbOp.mergePage title [("url", f.url)],
                    DbOp.mergeAlias title f.realTitle]
            let linkOps := f.links.map (fun l => DbOp.mergeLink f.realTitle l)
            let newEntries :=
              (f.links.filter (fun l => decide (l ∉ visited1))).map (fun l => (l, depth + 1))
            { queue := rest ++ newEntries,
              visited := visited1,
              ops := s.ops ++ [DbOp.mergePage f.realTitle [("url", f.url)]] ++
                aliasOps ++ linkOps,
              fetched := s.fetched ++ [title] }

/-! ## Termination measure for the crawl loop

Each frontier entry at depth `d` weighs `B ^ (maxDepth + 1 - d)` where
`B` exceeds every page's out-link count; entries beyond the depth bound
weigh `B ^ 0 = 1`. -/

def entryWeight (B maxDepth d : Nat) : Nat := B ^ (maxDepth + 1 - d)

def queueMeasure (B maxDepth : Nat) (q : List (String × Nat)) : Nat :=
  (q.map (fun e => entryWeight B maxDepth e.2)).sum

/-! ## Concrete instances used to evaluate the model -/

/-- A page source where the requested title "a" resolves to the distinct
canonical title "A" with no out-links. -/
def aliasFetch : String → Option Fetched :=
  fun t => if t = "a" then some { realTitle := "A", links := [], url := "u" } else none

/-- A frontier holding the same requested title twice (duplicate enqueue
is permitted by the crawler). -/
def aliasStart : CrawlState :=
  { queue := [("a", 0), ("a", 0)], visited := [], ops := [], fetched := [] }

/-- A two-page cyclic link graph: a ↔ b, each title canonical. -/
def cycleFetch : String → Option Fetched :=
  fun t =>
    if t = "a" then some { realTitle := "a", links := ["b"], url := "ua" }
    else if t = "b" then some { realTitle := "b", links := ["a"], url := "ub" }
    else none

/-- A store snapshot with a resolved page "A" linking to a pending page
"X" ("X" was created as a link target: node present, `url` unset). -/
def pendingPages : List StorePage :=
  [{ id := 0, title := "A", url := some "http://a" },
   { id := 1, title := "X", url := none }]

def pendingLinks : List (Nat × Nat) := [(0, 1)]

/-! ## Lemmas about the candidate loops -/

theorem addCandidates_mem_ids (mainId group : Nat) (outDir : Bool)
    (cands : List (Option StoreNode)) (st : BuildState) (x : Nat)
    (hx : x ∈ st.nodeIds) : x ∈ (addCandidates mainId group outDir cands st).nodeIds := by
  induction cands generalizing st with
  | nil => simpa [addCandidates] using hx
  | cons c rest ih =>
      cases c with
      | none => simpa [addCandidates] using ih st hx
      | some n =>
          by_cases hn : n.id ∈ st.nodeIds
          · simp only [addCandidates, hn, if_pos]
            exact ih _ hx
          · simp only [addCandidates, hn, if_neg, not_false_iff]
            exact ih _ (by simp [hx])

theorem addCandidates_mem_nodes (mainId group : Nat) (outDir : Bool)
    (cands : List (Option StoreNode)) (st : BuildState) (v : VisNode)
    (hv : v ∈ st.nodes) : v ∈ (addCandidates mainId group outDir cands st).nodes := by
  induction cands generalizing st with
  | nil => simpa [addCandidates] using hv
  | cons c rest ih =>
      cases c with
      | none => simpa [addCandidates] using ih st hv
      | some n =>
          by_cases hn : n.id ∈ st.nodeIds
          · simp only [addCandidates, hn, if_pos]
            exact ih _ hv
          · simp only [addCandidates, hn, if_neg, not_false_iff]
            exact ih _ (by simp [hv])

theorem addCandidates_ids_eq (mainId group : Nat) (outDir : Bool)
    (cands : List (Option StoreNode)) (st : BuildState)
    (h : st.nodeIds = st.nodes.map (fun v => v.id)) :
    (addCandidates mainId group outDir cands st).nodeIds =
      (addCandidates mainId group outDir cands st).nodes.map (fun v => v.id) := by
  induction cands generalizing st with
  | nil => simpa [addCandidates] using h
  | cons c rest ih =>
      cases c with
      | none => simpa [addCandidates] using ih st h
      | some n =>
          by_cases hn : n.id ∈ st.nodeIds
          · simp only [addCandidates, hn, if_pos]
            exact ih _ h
          · simp only [addCandidates, hn, if_neg, not_false_iff]
            exact ih _ (by simp [h])

theorem addCandidates_nodup (mainId group : Nat) (outDir : Bool)
    (cands : List (Option StoreNode)) (st : BuildState)
    (h : st.nodeIds.Nodup) :
    (addCandidates mainId group outDir cands st).nodeIds.Nodup := by
  induction cands generalizing st with
  | nil => simpa [addCandidates] using h
  | cons c rest ih =>
      cases c with
      | none => simpa [addCandidates] using ih st h
      | some n =>
          by_cases hn : n.id ∈ st.nodeIds
          · simp only [addCandidates, hn, if_pos]
            exact ih _ h
          · simp only [addCandidates, hn, if_neg, not_false_iff]
            refine ih _ ?_
            simp [List.nodup_append, h, hn]

theorem addCandidates_edges_closed (mainId group : Nat) (outDir : Bool)
    (cands : List (Option StoreNode)) (st : BuildState)
    (hm : mainId ∈ st.nodeIds)
    (h : ∀ e ∈ st.edges, e.fromId ∈ st.nodeIds ∧ e.toId ∈ st.nodeIds) :
    ∀ e ∈ (addCandidates mainId group outDir cands st).edges,
      e.fromId ∈ (addCandidates mainId group outDir cands st).nodeIds ∧
      e.toId ∈ (addCandidates mainId group outDir cands st).nodeIds := by
  induction cands generalizing st with
  | nil => simpa [addCandidates] using h
  | cons c rest ih =>
      cases c with
      | none => simpa [addCandidates] using ih st hm h
      | some n =>
          by_cases hn : n.id ∈ st.nodeIds
          · simp only [addCandidates, hn, if_pos]
            refine ih _ hm ?_
            intro e he
            simp only [List.mem_append, List.mem_singleton] at he
            rcases he with he | he
            · exact h e he
            · subst he
              cases outDir <;> simp [hm, hn]
          · simp only [addCandidates, hn, if_neg, not_false_iff]
            refine ih _ (by simp [hm]) ?_
            intro e he
            simp only [List.mem_append, List.mem_singleton] at he
            rcases he with he | he
            · rcases h e he with ⟨h1, h2⟩
              exact ⟨by simp [h1], by simp [h2]⟩
            · subst he
              cases outDir <;> simp [hm]

theorem addCandidates_origin (mainId group : Nat) (outDir : Bool)
    (cands : List (Option StoreNode)) (st : BuildState) (v : VisNode)
    (hv : v ∈ (addCandidates mainId group outDir cands st).nodes) :
    v ∈ st.nodes ∨
      ∃ n, some n ∈ cands ∧ v = ⟨n.id, n.title, group⟩ := by
  induction cands generalizing st with
  | nil =>
      left; simpa [addCandidates] using hv
  | cons c rest ih =>
      cases c with
      | none =>
          rcases ih st (by simpa [addCandidates] using hv) with h | ⟨n, hn, hvn⟩
          · exact Or.inl h
          · exact Or.inr ⟨n, by simp [hn], hvn⟩
      | some n =>
          by_cases hn : n.id ∈ st.nodeIds
          · rw [addCandidates] at hv
            simp only [hn, if_pos] at hv
            rcases ih _ hv with h | ⟨m, hm, hvm⟩
            · exact Or.inl h
            · exact Or.inr ⟨m, by simp [hm], hvm⟩
          · rw [addCandidates] at hv
            simp only [hn, if_neg, not_false_iff] at hv
            rcases ih _ hv with h | ⟨m, hm, hvm⟩
            · simp only [List.mem_append, List.mem_singleton] at h
              rcases h with h | h
              · exact Or.inl h
              · exact Or.inr ⟨n, by simp, h⟩
            · exact Or.inr ⟨m, by simp [hm], hvm⟩

theorem addCandidates_covers (mainId group : Nat) (outDir : Bool)
    (cands : List (Option StoreNode)) (st : BuildState) (n : StoreNode)
    (hn : some n ∈ cands) :
    n.id ∈ (addCandidates mainId group outDir cands st).nodeIds := by
  induction cands generalizing st with
  | nil => cases hn
  | cons c rest ih =>
      cases c with
      | none =>
          have hn' : some n ∈ rest := by simpa using hn
          simpa [addCandidates] using ih st hn'
      | some m =>
          rcases List.mem_cons.mp hn with heq | hmem
          · have hmn : m = n := by injection heq.symm
            subst hmn
            by_cases hm : m.id ∈ st.nodeIds
            · simp only [addCandidates, hm, if_pos]
              exact addCandidates_mem_ids _ _ _ _ _ _ hm
            · simp only [addCandidates, hm, if_neg, not_false_iff]
              exact addCandidates_mem_ids _ _ _ _ _ _ (by simp)
          · by_cases hm : m.id ∈ st.nodeIds
            · simp only [addCandidates, hm, if_pos]
              exact ih _ hmem
            · simp only [addCandidates, hm, if_neg, not_false_iff]
              exact ih _ hmem

theorem addCandidates_fresh (mainId group : Nat) (outDir : Bool)
    (cands : List (Option StoreNode)) (st : BuildState) (v : VisNode)
    (hv : v ∈ (addCandidates mainId group outDir cands st).nodes) :
    v ∈ st.nodes ∨ v.id ∉ st.nodeIds := by
  induction cands generalizing st with
  | nil =>
      left; simpa [addCandidates] using hv
  | cons c rest ih =>
      cases c with
      | none => exact ih st (by simpa [addCandidates] using hv)
      | some n =>
          by_cases hn : n.id ∈ st.nodeIds
          · rw [addCandidates] at hv
            simp only [hn, if_pos] at hv
            rcases ih _ hv with h | h
            · exact Or.inl h
            · exact Or.inr h
          · rw [addCandidates] at hv
            simp only [hn, if_neg, not_false_iff] at hv
            rcases ih _ hv with h | h
            · simp only [List.mem_append, List.mem_singleton] at h
              rcases h with h | h
              · exact Or.inl h
              · right; subst h; exact hn
            · right
              intro hc
              exact h (by simp [hc])

theorem addCandidates_skips_none (mainId group : Nat) (outDir : Bool)
    (cands : List (Option StoreNode)) (st : BuildState) :
    addCandidates mainId group outDir cands st =
      addCandidates mainId group outDir (cands.reduceOption.map some) st := by
  induction cands generalizing st with
  | nil => simp [addCandidates]
  | cons c rest ih =>
      cases c with
      | none => simp only [addCandidates, List.reduceOption_cons_of_none]; exact ih st
      | some n =>
          simp only [addCandidates, List.reduceOption_cons_of_some, List.map_cons]
          exact ih _

theorem addCandidates_nodes_suffix (mainId group : Nat) (outDir : Bool)
    (cands : List (Option StoreNode)) (st : BuildState) :
    ∃ suf, (addCandidates mainId group outDir cands st).nodes = st.nodes ++ suf := by
  induction cands generalizing st with
  | nil => exact ⟨[], by simp [addCandidates]⟩
  | cons c rest ih =>
      cases c with
      | none => simpa [addCandidates] using ih st
      | some n =>
          by_cases hn : n.id ∈ st.nodeIds
          · simp only [addCandidates, hn, if_pos]
            exact ih _
          · simp only [addCandidates, hn, if_neg, not_false_iff]
            obtain ⟨suf, hsuf⟩ := ih
              (⟨st.nodes ++ [⟨n.id, n.title, group⟩], st.nodeIds ++ [n.id],
                st.edges ++ [if outDir then VisEdge.mk mainId n.id
                  else VisEdge.mk n.id mainId]⟩ : BuildState)
            refine ⟨⟨n.id, n.title, group⟩ :: suf, ?_⟩
            rw [hsuf]
            simp

/-! ## Lemmas about the whole node/edge build of `get_graph_data` -/

theorem buildAll_eq (m : StoreNode) (o i : List (Option StoreNode)) :
    buildAll m o i =
      addCandidates m.id 3 false i
        (addCandidates m.id 2 true o ⟨[⟨m.id, m.title, 1⟩], [m.id], []⟩) := by
  simp [buildAll]

theorem buildAll_ids_eq (m : StoreNode) (o i : List (Option StoreNode)) :
    (buildAll m o i).nodeIds = (buildAll m o i).nodes.map (fun v => v.id) := by
  rw [buildAll_eq]
  exact addCandidates_ids_eq _ _ _ _ _ (addCandidates_ids_eq _ _ _ _ _ (by simp))

theorem buildAll_nodup (m : StoreNode) (o i : List (Option StoreNode)) :
    (buildAll m o i).nodeIds.Nodup := by
  rw [buildAll_eq]
  exact addCandidates_nodup _ _ _ _ _ (addCandidates_nodup _ _ _ _ _ (by simp))

theorem buildAll_closed (m : StoreNode) (o i : List (Option StoreNode)) :
    ∀ e ∈ (buildAll m o i).edges,
      e.fromId ∈ (buildAll m o i).nodeIds ∧ e.toId ∈ (buildAll m o i).nodeIds := by
  rw [buildAll_eq]
  refine addCandidates_edges_closed _ _ _ _ _ ?_ ?_
  · exact addCandidates_mem_ids _ _ _ _ _ _ (by simp)
  · exact addCandidates_edges_closed _ _ _ _ _ (by simp) (by simp)

theorem buildAll_nodes_cons (m : StoreNode) (o i : List (Option StoreNode)) :
    ∃ tail, (buildAll m o i).nodes = ⟨m.id, m.title, 1⟩ :: tail := by
  rw [buildAll_eq]
  rcases addCandidates_nodes_suffix m.id 2 true o ⟨[⟨m.id, m.title, 1⟩], [m.id], []⟩ with
    ⟨s1, h1⟩
  rcases addCandidates_nodes_suffix m.id 3 false i
    (addCandidates m.id 2 true o ⟨[⟨m.id, m.title, 1⟩], [m.id], []⟩) with ⟨s2, h2⟩
  exact ⟨s1 ++ s2, by simp [h2, h1]⟩

theorem buildAll_group_main (m : StoreNode) (o i : List (Option StoreNode))
    (v : VisNode) (hv : v ∈ (buildAll m o i).nodes) (hid : v.id = m.id) :
    v = ⟨m.id, m.title, 1⟩ := by
  rw [buildAll_eq] at hv
  have hmid : m.id ∈ (addCandidates m.id 2 true o
      (⟨[⟨m.id, m.title, 1⟩], [m.id], []⟩ : BuildState)).nodeIds :=
    addCandidates_mem_ids _ _ _ _ _ _ (by simp)
  rcases addCandidates_fresh _ _ _ _ _ _ hv with h | h
  · rcases addCandidates_fresh _ _ _ _ _ _ h with h' | h'
    · simpa using h'
    · exact absurd (List.mem_singleton.mpr hid) h'
  · exact absurd (hid ▸ hmid) h

theorem buildAll_group_outgoing (m : StoreNode) (o i : List (Option StoreNode))
    (v : VisNode) (hv : v ∈ (buildAll m o i).nodes) (hid : v.id ≠ m.id)
    (n : StoreNode) (hn : some n ∈ o) (hnv : n.id = v.id) : v.group = 2 := by
  rw [buildAll_eq] at hv
  have hcov : v.id ∈ (addCandidates m.id 2 true o
      (⟨[⟨m.id, m.title, 1⟩], [m.id], []⟩ : BuildState)).nodeIds :=
    hnv ▸ addCandidates_covers _ _ _ _ _ _ hn
  rcases addCandidates_fresh _ _ _ _ _ _ hv with h | h
  · rcases addCandidates_origin _ _ _ _ _ _ h with h' | ⟨k, _, hk⟩
    · have hvm : v = ⟨m.id, m.title, 1⟩ := by simpa using h'
      exact absurd (by simp [hvm]) hid
    · simp [hk]
  · exact absurd hcov h

theorem buildAll_group_incoming (m : StoreNode) (o i : List (Option StoreNode))
    (v : VisNode) (hv : v ∈ (buildAll m o i).nodes) (hid : v.id ≠ m.id)
    (hno : ∀ n : StoreNode, some n ∈ o → n.id ≠ v.id) : v.group = 3 := by
  rw [buildAll_eq] at hv
  rcases addCandidates_origin _ _ _ _ _ _ hv with h | ⟨k, _, hk⟩
  · rcases addCandidates_origin _ _ _ _ _ _ h with h' | ⟨k, hk, hvk⟩
    · have hvm : v = ⟨m.id, m.title, 1⟩ := by simpa using h'
      exact absurd (by simp [hvm]) hid
    · have hkv : v.id = k.id := by simp [hvk]
      exact absurd hkv.symm (hno k hk)
  · simp [hk]

theorem buildAll_label_origin (m : StoreNode) (o i : List (Option StoreNode))
    (v : VisNode) (hv : v ∈ (buildAll m o i).nodes) :
    (v.id = m.id ∧ v.label = m.title) ∨
      ∃ n : StoreNode, some n ∈ o ++ i ∧ v.id = n.id ∧ v.label = n.title := by
  rw [buildAll_eq] at hv
  rcases addCandidates_origin _ _ _ _ _ _ hv with h | ⟨k, hk, hvk⟩
  · rcases addCandidates_origin _ _ _ _ _ _ h with h' | ⟨k, hk, hvk⟩
    · left
      have : v = ⟨m.id, m.title, 1⟩ := by simpa using h'
      simp [this]
    · exact Or.inr ⟨k, by simp [hk], by simp [hvk]⟩
  · exact Or.inr ⟨k, by simp [hk], by simp [hvk]⟩

theorem assembleGraph_nodup (m : StoreNode) (o i : List (Option StoreNode)) (limit : Nat) :
    ((assembleGraph m o i limit).nodes.map (fun v => v.id)).Nodup := by
  have hnd := buildAll_nodup m o i
  rw [buildAll_ids_eq] at hnd
  unfold assembleGraph
  by_cases h : limit < (buildAll m o i).nodes.length
  · rw [if_pos h]
    rw [List.map_take]
    exact (List.take_sublist _ _).nodup hnd
  · rw [if_neg h]
    exact hnd

theorem assembleGraph_closed (m : StoreNode) (o i : List (Option StoreNode)) (limit : Nat) :
    ∀ e ∈ (assembleGraph m o i limit).edges,
      (∃ v ∈ (assembleGraph m o i limit).nodes, v.id = e.fromId) ∧
      (∃ v ∈ (assembleGraph m o i limit).nodes, v.id = e.toId) := by
  intro e he
  unfold assembleGraph at he ⊢
  by_cases h : limit < (buildAll m o i).nodes.length
  · rw [if_pos h] at he ⊢
    simp only [List.mem_filter, decide_eq_true_eq] at he
    rcases he with ⟨-, h1, h2⟩
    rw [List.mem_map] at h1 h2
    rcases h1 with ⟨v1, hv1, hv1e⟩
    rcases h2 with ⟨v2, hv2, hv2e⟩
    exact ⟨⟨v1, hv1, hv1e⟩, ⟨v2, hv2, hv2e⟩⟩
  · rw [if_neg h] at he ⊢
    have hcl := buildAll_closed m o i e he
    rw [buildAll_ids_eq] at hcl
    rcases hcl with ⟨h1, h2⟩
    rw [List.mem_map] at h1 h2
    rcases h1 with ⟨v1, hv1, hv1e⟩
    rcases h2 with ⟨v2, hv2, hv2e⟩
    exact ⟨⟨v1, hv1, hv1e⟩, ⟨v2, hv2, hv2e⟩⟩

theorem assembleGraph_card (m : StoreNode) (o i : List (Option StoreNode)) (limit : Nat) :
    (assembleGraph m o i limit).nodes.length ≤ limit := by
  unfold assembleGraph
  by_cases h : limit < (buildAll m o i).nodes.length
  · rw [if_pos h]
    simp [List.length_take]
  · rw [if_neg h]
    exact Nat.le_of_not_lt h

theorem assembleGraph_trunc (m : StoreNode) (o i : List (Option StoreNode)) (limit : Nat)
    (h : limit < (buildAll m o i).nodes.length) :
    (assembleGraph m o i limit).nodes = (buildAll m o i).nodes.take limit ∧
    (assembleGraph m o i limit).edges = (buildAll m o i).edges.filter
      (fun e => decide (e.fromId ∈ ((buildAll m o i).nodes.take limit).map (fun v => v.id) ∧
        e.toId ∈ ((buildAll m o i).nodes.take limit).map (fun v => v.id))) := by
  unfold assembleGraph
  rw [if_pos h]
  exact ⟨rfl, rfl⟩

theorem assembleGraph_nodes_sub (m : StoreNode) (o i : List (Option StoreNode)) (limit : Nat) :
    ∀ v ∈ (assembleGraph m o i limit).nodes, v ∈ (buildAll m o i).nodes := by
  intro v hv
  unfold assembleGraph at hv
  by_cases h : limit < (buildAll m o i).nodes.length
  · rw [if_pos h] at hv
    exact List.take_subset _ _ hv
  · rw [if_neg h] at hv
    exact hv

theorem assembleGraph_nonempty (m : StoreNode) (o i : List (Option StoreNode)) (limit : Nat)
    (hl : 1 ≤ limit) : (assembleGraph m o i limit).nodes ≠ [] := by
  obtain ⟨tail, htail⟩ := buildAll_nodes_cons m o i
  unfold assembleGraph
  by_cases h : limit < (buildAll m o i).nodes.length
  · rw [if_pos h]
    obtain ⟨k, hk⟩ := Nat.exists_eq_add_of_le hl
    simp only [htail, hk]
    rw [List.take_cons]
    · simp
    · omega
  · rw [if_neg h]
    simp [htail]

/-! ## Lemmas about the crawl loop -/

theorem sum_map_const {α : Type} (l : List α) (c : Nat) :
    (l.map (fun _ => c)).sum = l.length * c := by
  induction l with
  | nil => simp
  | cons a l ih => simp [ih, Nat.succ_mul, Nat.add_comm]

theorem entryWeight_pos (B maxDepth d : Nat) (hB : 0 < B) :
    0 < entryWeight B maxDepth d := pow_pos hB _

theorem crawlStep_skip (fetch : String → Option Fetched) (maxDepth : Nat)
    (s : CrawlState) (title : String) (depth : Nat) (rest : List (String × Nat))
    (hq : s.queue = (title, depth) :: rest)
    (h : title ∈ s.visited ∨ maxDepth < depth) :
    crawlStep fetch maxDepth s = { s with queue := rest } := by
  obtain ⟨q, vis, ops, fet⟩ := s
  simp only at hq
  subst hq
  simp only [crawlStep]
  rw [if_pos (by simpa using h)]

theorem crawlStep_fail (fetch : String → Option Fetched) (maxDepth : Nat)
    (s : CrawlState) (title : String) (depth : Nat) (rest : List (String × Nat))
    (hq : s.queue = (title, depth) :: rest)
    (hv : title ∉ s.visited) (hd : depth ≤ maxDepth)
    (hfet : fetch title = none) :
    crawlStep fetch maxDepth s = { s with queue := rest, fetched := s.fetched ++ [title] } := by
  obtain ⟨q, vis, ops, fet⟩ := s
  simp only at hq hv
  subst hq
  simp only [crawlStep]
  rw [if_neg (by simp [hv]; omega)]
  rw [hfet]

theorem crawlStep_process (fetch : String → Option Fetched) (maxDepth : Nat)
    (s : CrawlState) (title : String) (depth : Nat) (rest : List (String × Nat))
    (f : Fetched)
    (hq : s.queue = (title, depth) :: rest)
    (hv : title ∉ s.visited) (hd : depth ≤ maxDepth)
    (hfet : fetch title = some f) :
    crawlStep fetch maxDepth s =
      { queue := rest ++ (f.links.filter
          (fun l => decide (l ∉ s.visited.insert f.realTitle))).map (fun l => (l, depth + 1)),
        visited := s.visited.insert f.realTitle,
        ops := s.ops ++ [DbOp.mergePage f.realTitle [("url", f.url)]] ++
          (if title = f.realTitle then []
           else [DbOp.mergePage title [("url", f.url)],
                 DbOp.mergeAlias title f.realTitle]) ++
          f.links.map (fun l => DbOp.mergeLink f.realTitle l),
        fetched := s.fetched ++ [title] } := by
  obtain ⟨q, vis, ops, fet⟩ := s
  simp only at hq hv
  subst hq
  simp only [crawlStep]
  rw [if_neg (by simp [hv]; omega)]
  rw [hfet]

theorem crawlStep_measure_lt (fetch : String → Option Fetched) (maxDepth B : Nat)
    (hB : 0 < B)
    (hf : ∀ t f, fetch t = some f → f.links.length < B)
    (s : CrawlState) (hq : s.queue ≠ []) :
    queueMeasure B maxDepth (crawlStep fetch maxDepth s).queue <
      queueMeasure B maxDepth s.queue := by
  obtain ⟨q, vis, ops0, fet⟩ := s
  cases q with
  | nil => simp at hq
  | cons head rest =>
      obtain ⟨title, depth⟩ := head
      by_cases hskip : title ∈ vis ∨ maxDepth < depth
      · rw [crawlStep_skip fetch maxDepth _ title depth rest rfl (by simpa using hskip)]
        simp only [queueMeasure, List.map_cons, List.sum_cons]
        have := entryWeight_pos B maxDepth depth hB
        omega
      · push_neg at hskip
        obtain ⟨hv, hd'⟩ := hskip
        cases hfet : fetch title with
        | none =>
            rw [crawlStep_fail fetch maxDepth _ title depth rest rfl
              (by simpa using hv) hd' hfet]
            simp only [queueMeasure, List.map_cons, List.sum_cons]
            have := entryWeight_pos B maxDepth depth hB
            omega
        | some f =>
            rw [crawlStep_process fetch maxDepth _ title depth rest f rfl
              (by simpa using hv) hd' hfet]
            simp only [queueMeasure, List.map_cons, List.sum_cons, List.map_append,
              List.sum_append]
            have hsum : (((f.links.filter
                (fun l => decide (l ∉ vis.insert f.realTitle))).map
                  (fun l => (l, depth + 1))).map
                    (fun e => entryWeight B maxDepth e.2)).sum =
                (f.links.filter
                  (fun l => decide (l ∉ vis.insert f.realTitle))).length *
                  entryWeight B maxDepth (depth + 1) := by
              generalize f.links.filter (fun l => decide (l ∉ vis.insert f.realTitle)) = L
              induction L with
              | nil => simp
              | cons a L ih =>
                  simp only [List.map_cons, List.sum_cons, ih, List.length_cons]
                  ring
            have hexp : entryWeight B maxDepth depth =
                B * entryWeight B maxDepth (depth + 1) := by
              unfold entryWeight
              have hdd : maxDepth + 1 - depth = (maxDepth + 1 - (depth + 1)) + 1 := by omega
              rw [hdd, pow_succ]
              ring
            have hcl : (f.links.filter
                (fun l => decide (l ∉ vis.insert f.realTitle))).length < B :=
              lt_of_le_of_lt (List.length_filter_le _ _) (hf title f hfet)
            have hmul : (f.links.filter
                (fun l => decide (l ∉ vis.insert f.realTitle))).length *
                  entryWeight B maxDepth (depth + 1) <
                B * entryWeight B maxDepth (depth + 1) :=
              (Nat.mul_lt_mul_right (entryWeight_pos B maxDepth (depth + 1) hB)).mpr hcl
            rw [hsum, hexp]
            linarith

theorem crawl_reaches_empty_aux (fetch : String → Option Fetched) (maxDepth B : Nat)
    (hB : 0 < B)
    (hf : ∀ t f, fetch t = some f → f.links.length < B) :
    ∀ m s, queueMeasure B maxDepth s.queue ≤ m →
      ∃ n, ((crawlStep fetch maxDepth)^[n] s).queue = [] := by
  intro m
  induction m with
  | zero =>
      intro s hs
      refine ⟨0, ?_⟩
      cases hq : s.queue with
      | nil => simpa using hq
      | cons a q =>
          exfalso
          rw [hq] at hs
          simp only [queueMeasure, List.map_cons, List.sum_cons] at hs
          have := entryWeight_pos B maxDepth a.2 hB
          omega
  | succ m ih =>
      intro s hs
      cases hq : s.queue with
      | nil => exact ⟨0, by simpa using hq⟩
      | cons a q =>
          have hlt := crawlStep_measure_lt fetch maxDepth B hB hf s (by rw [hq]; simp)
          obtain ⟨n, hn⟩ := ih (crawlStep fetch maxDepth s) (by omega)
          exact ⟨n + 1, by rw [Function.iterate_succ_apply]; exact hn⟩

theorem crawl_reaches_empty (fetch : String → Option Fetched) (maxDepth L : Nat)
    (hf : ∀ t f, fetch t = some f → f.links.length ≤ L) (s : CrawlState) :
    ∃ n, ((crawlStep fetch maxDepth)^[n] s).queue = [] :=
  crawl_reaches_empty_aux fetch maxDepth (L + 1) (Nat.succ_pos L)
    (fun t f h => Nat.lt_succ_of_le (hf t f h))
    (queueMeasure (L + 1) maxDepth s.queue) s le_rfl

theorem crawl_fetch_once_aux (fetch : String → Option Fetched) (maxDepth : Nat)
    (t : String) (f : Fetched) (hft : fetch t = some f) (hcan : f.realTitle = t)
    (s : CrawlState)
    (h : (t ∈ s.visited → s.fetched.count t ≤ 1) ∧
      (t ∉ s.visited → s.fetched.count t = 0)) :
    (t ∈ (crawlStep fetch maxDepth s).visited →
      (crawlStep fetch maxDepth s).fetched.count t ≤ 1) ∧
    (t ∉ (crawlStep fetch maxDepth s).visited →
      (crawlStep fetch maxDepth s).fetched.count t = 0) := by
  obtain ⟨q, vis, ops0, fet⟩ := s
  cases q with
  | nil => simpa [crawlStep] using h
  | cons head rest =>
      obtain ⟨u, d⟩ := head
      by_cases hskip : u ∈ vis ∨ maxDepth < d
      · rw [crawlStep_skip fetch maxDepth _ u d rest rfl (by simpa using hskip)]
        exact h
      · push_neg at hskip
        obtain ⟨hv, hd⟩ := hskip
        cases hfet : fetch u with
        | none =>
            rw [crawlStep_fail fetch maxDepth _ u d rest rfl (by simpa using hv) hd hfet]
            have hut : u ≠ t := by
              intro he
              rw [he, hft] at hfet
              cases hfet
            simp only [List.count_append]
            have hcnt : [u].count t = 0 := by simp [List.count_cons, hut]
            rw [hcnt]
            simpa using h
        | some g =>
            rw [crawlStep_process fetch maxDepth _ u d rest g rfl (by simpa using hv) hd hfet]
            by_cases hut : u = t
            · subst hut
              have hgf : g = f := by
                rw [hft] at hfet
                injection hfet with hfg
                exact hfg.symm
              subst hgf
              constructor
              · intro _
                simp only [List.count_append]
                have h0 : fet.count u = 0 := h.2 (by simpa using hv)
                simp only at h0
                simp [h0, List.count_cons]
              · intro hc
                exact absurd (by simp [hcan] : u ∈ (vis.insert g.realTitle)) (by simpa using hc)
            · have hcnt : (fet ++ [u]).count t = fet.count t := by
                simp [List.count_append, List.count_cons, hut]
              constructor
              · intro hmem
                simp only [hcnt]
                rcases (by simpa using hmem : t = g.realTitle ∨ t ∈ vis) with hgt | hvt
                · by_cases hvis : t ∈ vis
                  · simpa using h.1 hvis
                  · have h0 : fet.count t = 0 := by simpa using h.2 hvis
                    omega
                · simpa using h.1 hvt
              · intro hmem
                simp only [hcnt]
                have hmem' : ¬(t = g.realTitle ∨ t ∈ vis) := by simpa using hmem
                have hnv : t ∉ vis := fun hc => hmem' (Or.inr hc)
                simpa using h.2 hnv

theorem crawl_fetch_once (fetch : String → Option Fetched) (maxDepth : Nat)
    (t : String) (f : Fetched) (hft : fetch t = some f) (hcan : f.realTitle = t)
    (s : CrawlState) (hfet0 : s.fetched = []) (n : Nat) :
    ((crawlStep fetch maxDepth)^[n] s).fetched.count t ≤ 1 := by
  have key : ∀ k, (t ∈ ((crawlStep fetch maxDepth)^[k] s).visited →
      ((crawlStep fetch maxDepth)^[k] s).fetched.count t ≤ 1) ∧
      (t ∉ ((crawlStep fetch maxDepth)^[k] s).visited →
      ((crawlStep fetch maxDepth)^[k] s).fetched.count t = 0) := by
    intro k
    induction k with
    | zero => simp [hfet0]
    | succ k ih =>
        rw [Function.iterate_succ_apply']
        exact crawl_fetch_once_aux fetch maxDepth t f hft hcan _ ih
  rcases key n with ⟨h1, h2⟩
  by_cases hm : t ∈ ((crawlStep fetch maxDepth)^[n] s).visited
  · exact h1 hm
  · simp [h2 hm]

theorem crawlStep_ops_shape (fetch : String → Option Fetched) (maxDepth : Nat)
    (s : CrawlState) :
    ∀ op ∈ (crawlStep fetch maxDepth s).ops, op ∈ s.ops ∨
      ∀ ttl props, op = DbOp.mergePage ttl props → ∃ u, props = [("url", u)] := by
  obtain ⟨q, vis, ops0, fet⟩ := s
  cases q with
  | nil => intro op hop; exact Or.inl (by simpa [crawlStep] using hop)
  | cons head rest =>
      obtain ⟨u, d⟩ := head
      by_cases hskip : u ∈ vis ∨ maxDepth < d
      · rw [crawlStep_skip fetch maxDepth _ u d rest rfl (by simpa using hskip)]
        intro op hop
        exact Or.inl hop
      · push_neg at hskip
        obtain ⟨hv, hd⟩ := hskip
        cases hfet : fetch u with
        | none =>
            rw [crawlStep_fail fetch maxDepth _ u d rest rfl (by simpa using hv) hd hfet]
            intro op hop
            exact Or.inl hop
        | some g =>
            rw [crawlStep_process fetch maxDepth _ u d rest g rfl (by simpa using hv) hd hfet]
            intro op hop
            simp only [List.mem_append] at hop
            rcases hop with ((hop | hop) | hop) | hop
            · exact Or.inl hop
            · right
              intro ttl props heq
              rw [List.mem_singleton.mp hop] at heq
              injection heq with h1 h2
              exact ⟨g.url, h2.symm⟩
            · right
              intro ttl props heq
              by_cases hreal : u = g.realTitle
              · rw [if_pos hreal] at hop
                cases hop
              · rw [if_neg hreal] at hop
                rcases List.mem_cons.mp hop with hop | hop
                · rw [hop] at heq
                  injection heq with h1 h2
                  exact ⟨g.url, h2.symm⟩
                · rw [List.mem_singleton.mp hop] at heq
                  cases heq
            · right
              intro ttl props heq
              rw [List.mem_map] at hop
              rcases hop with ⟨l, _, hop⟩
              rw [← hop] at heq
              cases heq

theorem crawl_ops_url_only (fetch : String → Option Fetched) (maxDepth : Nat)
    (s : CrawlState) (hops0 : s.ops = []) (n : Nat) :
    ∀ op ∈ ((crawlStep fetch maxDepth)^[n] s).ops,
      ∀ ttl props, op = DbOp.mergePage ttl props → ∃ u, props = [("url", u)] := by
  induction n with
  | zero =>
      intro op hop
      rw [Function.iterate_zero_apply, hops0] at hop
      cases hop
  | succ n ih =>
      intro op hop
      rw [Function.iterate_succ_apply'] at hop
      rcases crawlStep_ops_shape fetch maxDepth _ op hop with hmem | hshape
      · exact ih op hmem
      · exact hshape

/-! ## Lemmas about the shortest-path node loop -/

theorem addPathNodes_mem (source target : String) (ns : List StoreNode)
    (nodes : List VisNode) (ids : List Nat) (v : VisNode) (hv : v ∈ nodes) :
    v ∈ addPathNodes source target ns nodes ids := by
  induction ns generalizing nodes ids with
  | nil => simpa [addPathNodes] using hv
  | cons n rest ih =>
      by_cases hn : n.id ∈ ids
      · simp only [addPathNodes, hn, if_pos]
        exact ih _ _ hv
      · simp only [addPathNodes, hn, if_neg, not_false_iff]
        exact ih _ _ (by simp [hv])

theorem addPathNodes_nodup (source target : String) (ns : List StoreNode)
    (nodes : List VisNode) (ids : List Nat)
    (hid : ids = nodes.map (fun v => v.id)) (hnd : ids.Nodup) :
    ((addPathNodes source target ns nodes ids).map (fun v => v.id)).Nodup := by
  induction ns generalizing nodes ids with
  | nil =>
      rw [addPathNodes]
      rw [hid] at hnd
      exact hnd
  | cons n rest ih =>
      by_cases hn : n.id ∈ ids
      · simp only [addPathNodes, hn, if_pos]
        exact ih _ _ hid hnd
      · simp only [addPathNodes, hn, if_neg, not_false_iff]
        refine ih _ _ (by simp [hid]) ?_
        simp [List.nodup_append, hnd, hn]

theorem addPathNodes_groups (source target : String) (ns : List StoreNode)
    (nodes : List VisNode) (ids : List Nat)
    (h : ∀ v ∈ nodes, v.group = if v.label = source ∨ v.label = target then 1 else 2) :
    ∀ v ∈ addPathNodes source target ns nodes ids,
      v.group = if v.label = source ∨ v.label = target then 1 else 2 := by
  induction ns generalizing nodes ids with
  | nil =>
      intro v hv
      rw [addPathNodes] at hv
      exact h v hv
  | cons n rest ih =>
      by_cases hn : n.id ∈ ids
      · simp only [addPathNodes, hn, if_pos]
        exact ih _ _ h
      · simp only [addPathNodes, hn, if_neg, not_false_iff]
        refine ih _ _ ?_
        intro v hv
        simp only [List.mem_append, List.mem_singleton] at hv
        rcases hv with hv | hv
        · exact h v hv
        · subst hv
          simp

theorem addPathNodes_covers (source target : String) (ns : List StoreNode)
    (nodes : List VisNode) (ids : List Nat)
    (hid : ids = nodes.map (fun v => v.id)) :
    ∀ n ∈ ns, n.id ∈ (addPathNodes source target ns nodes ids).map (fun v => v.id) := by
  induction ns generalizing nodes ids with
  | nil => intro n hn; cases hn
  | cons m rest ih =>
      intro n hn
      rcases List.mem_cons.mp hn with heq | hmem
      · subst heq
        by_cases hm : n.id ∈ ids
        · simp only [addPathNodes, hm, if_pos]
          rw [hid] at hm
          rw [List.mem_map] at hm
          rcases hm with ⟨v, hv, hvid⟩
          rw [List.mem_map]
          exact ⟨v, addPathNodes_mem _ _ _ _ _ _ hv, hvid⟩
        · simp only [addPathNodes, hm, if_neg, not_false_iff]
          rw [List.mem_map]
          refine ⟨⟨n.id, n.title,
            if n.title = source ∨ n.title = target then 1 else 2⟩, ?_, rfl⟩
          exact addPathNodes_mem _ _ _ _ _ _ (by simp)
      · by_cases hm : m.id ∈ ids
        · simp only [addPathNodes, hm, if_pos]
          exact ih _ _ hid n hmem
        · simp only [addPathNodes, hm, if_neg, not_false_iff]
          exact ih _ _ (by simp [hid]) n hmem

/-! ## Claim theorems -/

/-- C1: for every integer limit supplied to the graph endpoint, the limit
actually used is clamped to [10, 200]; then the outgoing budget is
`min(floor(limit/2), limit-1)` and the incoming budget is
`limit - outgoingBudget - 1`, so `1 + outgoingBudget + incomingBudget = limit`
and both budgets are nonnegative; in particular limit 10 gives an outgoing
budget of 5 and an incoming budget of 4. -/
theorem C1_limit_clamp_and_budget_split (requested : Int) :
    10 ≤ usedLimit requested ∧ usedLimit requested ≤ 200 ∧
    outgoingLimit requested =
      min (usedLimit requested / 2) (usedLimit requested - 1) ∧
    incomingLimit requested =
      usedLimit requested - outgoingLimit requested - 1 ∧
    1 + outgoingLimit requested + incomingLimit requested = usedLimit requested ∧
    0 ≤ outgoingLimit requested ∧ 0 ≤ incomingLimit requested ∧
    usedLimit 10 = 10 ∧ outgoingLimit 10 = 5 ∧ incomingLimit 10 = 4 := by
  refine ⟨?_, ?_, rfl, rfl, ?_, ?_, ?_, by decide, by decide, by decide⟩ <;>
    simp only [incomingLimit, outgoingLimit, usedLimit] <;> omega

/-- C2: every visualization graph produced by the assembly step has unique
node ids, every edge endpoint id present in the node set, and at most `limit`
nodes; when the built node list exceeds the limit, the output is exactly the
limit-length truncation of the built node list followed by dropping every
edge with a missing endpoint, so no edge ever dangles. -/
theorem C2_graph_invariants (mainNode : StoreNode)
    (outgoing incoming : List (Option StoreNode)) (limit : Nat) :
    ((assembleGraph mainNode outgoing incoming limit).nodes.map (fun v => v.id)).Nodup ∧
    (∀ e ∈ (assembleGraph mainNode outgoing incoming limit).edges,
      (∃ v ∈ (assembleGraph mainNode outgoing incoming limit).nodes, v.id = e.fromId) ∧
      (∃ v ∈ (assembleGraph mainNode outgoing incoming limit).nodes, v.id = e.toId)) ∧
    (assembleGraph mainNode outgoing incoming limit).nodes.length ≤ limit ∧
    (limit < (buildAll mainNode outgoing incoming).nodes.length →
      (assembleGraph mainNode outgoing incoming limit).nodes =
        (buildAll mainNode outgoing incoming).nodes.take limit ∧
      (assembleGraph mainNode outgoing incoming limit).edges =
        (buildAll mainNode outgoing incoming).edges.filter
          (fun e => decide
            (e.fromId ∈ ((buildAll mainNode outgoing incoming).nodes.take limit).map
              (fun v => v.id) ∧
             e.toId ∈ ((buildAll mainNode outgoing incoming).nodes.take limit).map
              (fun v => v.id)))) :=
  ⟨assembleGraph_nodup mainNode outgoing incoming limit,
   assembleGraph_closed mainNode outgoing incoming limit,
   assembleGraph_card mainNode outgoing incoming limit,
   assembleGraph_trunc mainNode outgoing incoming limit⟩

/-- Witness for C2 at a concrete assembly: the edge 0→1 is present and the
theorem yields a node carrying its source endpoint. -/
theorem C2_graph_invariants_witness :
    VisEdge.mk 0 1 ∈ (assembleGraph ⟨0, "C"⟩ [some ⟨1, "o1"⟩] [some ⟨2, "i1"⟩] 50).edges ∧
    (∃ v ∈ (assembleGraph ⟨0, "C"⟩ [some ⟨1, "o1"⟩] [some ⟨2, "i1"⟩] 50).nodes,
      v.id = (VisEdge.mk 0 1).fromId) :=
  ⟨by decide,
   ((C2_graph_invariants ⟨0, "C"⟩ [some ⟨1, "o1"⟩] [some ⟨2, "i1"⟩] 50).2.1
      (VisEdge.mk 0 1) (by decide)).1⟩

/-- C3: in graph assembly each node id is added at most once and keeps the
group of its first assignment in the order center (1), outgoing (2),
incoming (3); under the store's title-uniqueness guarantee (equal titles
imply equal node ids among the row's nodes) a title occurring in both
candidate lists is represented by a single node; and null candidate entries
contribute neither nodes nor edges. -/
theorem C3_dedup_and_group_priority (mainNode : StoreNode)
    (outgoing incoming : List (Option StoreNode)) (limit : Nat)
    (hinj : ∀ a ∈ mainNode :: (outgoing.reduceOption ++ incoming.reduceOption),
      ∀ b ∈ mainNode :: (outgoing.reduceOption ++ incoming.reduceOption),
        StoreNode.title a = StoreNode.title b → StoreNode.id a = StoreNode.id b) :
    ((assembleGraph mainNode outgoing incoming limit).nodes.map (fun v => v.id)).Nodup ∧
    (∀ v ∈ (assembleGraph mainNode outgoing incoming limit).nodes,
      v.id = mainNode.id → v = ⟨mainNode.id, mainNode.title, 1⟩) ∧
    (∀ v ∈ (assembleGraph mainNode outgoing incoming limit).nodes,
      v.id ≠ mainNode.id → (∃ n, some n ∈ outgoing ∧ StoreNode.id n = v.id) →
      v.group = 2) ∧
    (∀ v ∈ (assembleGraph mainNode outgoing incoming limit).nodes,
      v.id ≠ mainNode.id → (∀ n : StoreNode, some n ∈ outgoing → StoreNode.id n ≠ v.id) →
      v.group = 3) ∧
    (∀ v ∈ (assembleGraph mainNode outgoing incoming limit).nodes,
      ∀ w ∈ (assembleGraph mainNode outgoing incoming limit).nodes,
        v.label = w.label → v = w) ∧
    assembleGraph mainNode (outgoing.reduceOption.map some)
      (incoming.reduceOption.map some) limit =
      assembleGraph mainNode outgoing incoming limit := by
  refine ⟨assembleGraph_nodup mainNode outgoing incoming limit, ?_, ?_, ?_, ?_, ?_⟩
  · intro v hv hid
    exact buildAll_group_main mainNode outgoing incoming v
      (assembleGraph_nodes_sub mainNode outgoing incoming limit v hv) hid
  · intro v hv hid hex
    rcases hex with ⟨n, hn, hnv⟩
    exact buildAll_group_outgoing mainNode outgoing incoming v
      (assembleGraph_nodes_sub mainNode outgoing incoming limit v hv) hid n hn hnv
  · intro v hv hid hno
    exact buildAll_group_incoming mainNode outgoing incoming v
      (assembleGraph_nodes_sub mainNode outgoing incoming limit v hv) hid hno
  · intro v hv w hw hlab
    have hv' := assembleGraph_nodes_sub mainNode outgoing incoming limit v hv
    have hw' := assembleGraph_nodes_sub mainNode outgoing incoming limit w hw
    have hmm : mainNode ∈ mainNode :: (outgoing.reduceOption ++ incoming.reduceOption) :=
      List.mem_cons_self _ _
    have hmemof : ∀ a : StoreNode, some a ∈ outgoing ++ incoming →
        a ∈ mainNode :: (outgoing.reduceOption ++ incoming.reduceOption) := by
      intro a ha
      refine List.mem_cons_of_mem _ ?_
      rw [← List.reduceOption_append]
      exact List.reduceOption_mem_iff.mpr ha
    have hid : v.id = w.id := by
      rcases buildAll_label_origin mainNode outgoing incoming v hv' with
        ⟨hv1, hv2⟩ | ⟨a, ha, hva, hvt⟩ <;>
        rcases buildAll_label_origin mainNode outgoing incoming w hw' with
          ⟨hw1, hw2⟩ | ⟨b, hb, hwb, hwt⟩
      · rw [hv1, hw1]
      · have htt : StoreNode.title mainNode = StoreNode.title b := by
          rw [← hv2, hlab, hwt]
        rw [hv1, hwb]
        exact hinj mainNode hmm b (hmemof b hb) htt
      · have htt : StoreNode.title a = StoreNode.title mainNode := by
          rw [← hvt, hlab, hw2]
        rw [hva, hw1]
        exact hinj a (hmemof a ha) mainNode hmm htt
      · have htt : StoreNode.title a = StoreNode.title b := by
          rw [← hvt, hlab, hwt]
        rw [hva, hwb]
        exact hinj a (hmemof a ha) b (hmemof b hb) htt
    exact List.inj_on_of_nodup_map
      (assembleGraph_nodup mainNode outgoing incoming limit) hv hw hid
  · have hbuild : buildAll mainNode (outgoing.reduceOption.map some)
        (incoming.reduceOption.map some) = buildAll mainNode outgoing incoming := by
      rw [buildAll_eq, buildAll_eq]
      rw [← addCandidates_skips_none mainNode.id 2 true outgoing]
      rw [← addCandidates_skips_none mainNode.id 3 false incoming]
    unfold assembleGraph
    rw [hbuild]

/-- Witness for C3: center "A", the store node "B" listed both as an outgoing
and an incoming candidate; the hypotheses hold by evaluation and the theorem
yields the single-node-per-title conclusion. -/
theorem C3_dedup_and_group_priority_witness :
    (∀ a ∈ (⟨0, "A"⟩ : StoreNode) ::
        (([some ⟨1, "B"⟩] : List (Option StoreNode)).reduceOption ++
         ([some ⟨1, "B"⟩] : List (Option StoreNode)).reduceOption),
      ∀ b ∈ (⟨0, "A"⟩ : StoreNode) ::
        (([some ⟨1, "B"⟩] : List (Option StoreNode)).reduceOption ++
         ([some ⟨1, "B"⟩] : List (Option StoreNode)).reduceOption),
        StoreNode.title a = StoreNode.title b → StoreNode.id a = StoreNode.id b) ∧
    ((assembleGraph ⟨0, "A"⟩ [some ⟨1, "B"⟩] [some ⟨1, "B"⟩] 50).nodes.map
      (fun v => v.id)).Nodup :=
  ⟨by decide,
   (C3_dedup_and_group_priority ⟨0, "A"⟩ [some ⟨1, "B"⟩] [some ⟨1, "B"⟩] 50 (by decide)).1⟩

/-- C4: for any page source with a finite out-link bound (any finite link
graph, cycles included) and any finite depth limit, the crawl loop empties
its frontier in finitely many steps; moreover every entry enqueued by a step
carries depth one greater than the entry just popped, and an entry that is
already visited or too deep is dropped without a fetch. -/
theorem C4_crawl_terminates (fetch : String → Option Fetched) (maxDepth L : Nat)
    (hL : ∀ t f, fetch t = some f → f.links.length ≤ L) (s : CrawlState) :
    (∃ n, ((crawlStep fetch maxDepth)^[n] s).queue = []) ∧
    (∀ title depth rest, s.queue = (title, depth) :: rest →
      ∀ e ∈ (crawlStep fetch maxDepth s).queue, e ∈ rest ∨ e.2 = depth + 1) ∧
    (∀ title depth rest, s.queue = (title, depth) :: rest →
      (title ∈ s.visited ∨ maxDepth < depth) →
      (crawlStep fetch maxDepth s).fetched = s.fetched) := by
  refine ⟨crawl_reaches_empty fetch maxDepth L hL s, ?_, ?_⟩
  · intro title depth rest hq e he
    by_cases hskip : title ∈ s.visited ∨ maxDepth < depth
    · rw [crawlStep_skip fetch maxDepth s title depth rest hq hskip] at he
      exact Or.inl he
    · push_neg at hskip
      obtain ⟨hv, hd⟩ := hskip
      cases hfet : fetch title with
      | none =>
          rw [crawlStep_fail fetch maxDepth s title depth rest hq hv hd hfet] at he
          exact Or.inl he
      | some f =>
          rw [crawlStep_process fetch maxDepth s title depth rest f hq hv hd hfet] at he
          simp only [List.mem_append] at he
          rcases he with he | he
          · exact Or.inl he
          · right
            rw [List.mem_map] at he
            rcases he with ⟨l, _, hl⟩
            rw [← hl]
  · intro title depth rest hq hskip
    rw [crawlStep_skip fetch maxDepth s title depth rest hq hskip]

/-- Witness for C4 on the two-page cyclic link graph a ↔ b. -/
theorem C4_crawl_terminates_witness :
    (∀ t f, cycleFetch t = some f → f.links.length ≤ 1) ∧
    ∃ n, ((crawlStep cycleFetch 2)^[n]
      (⟨[("a", 0)], [], [], []⟩ : CrawlState)).queue = [] := by
  have hL : ∀ t f, cycleFetch t = some f → f.links.length ≤ 1 := by
    intro t f h
    unfold cycleFetch at h
    split at h
    all_goals simp_all
    all_goals simp [← h]
  exact ⟨hL, (C4_crawl_terminates cycleFetch 2 1 hL ⟨[("a", 0)], [], [], []⟩).1⟩

/-- C9: a fetch failure for a single title is treated as a pure skip — the
step only pops the entry and logs the attempted title, leaving the visited
set and the store operations untouched — and every crawl run still empties
its frontier (the model is a total function, so no exception escapes). -/
theorem C9_fetch_failure_skip (fetch : String → Option Fetched) (maxDepth L : Nat)
    (hL : ∀ t f, fetch t = some f → f.links.length ≤ L) :
    (∀ s title depth rest, s.queue = (title, depth) :: rest →
      title ∉ s.visited → depth ≤ maxDepth → fetch title = none →
      crawlStep fetch maxDepth s =
        { s with queue := rest, fetched := s.fetched ++ [title] }) ∧
    (∀ s : CrawlState, ∃ n, ((crawlStep fetch maxDepth)^[n] s).queue = []) :=
  ⟨fun s title depth rest hq hv hd hf =>
      crawlStep_fail fetch maxDepth s title depth rest hq hv hd hf,
   fun s => crawl_reaches_empty fetch maxDepth L hL s⟩

/-- Witness for C9: the title "z" is not found by `aliasFetch`; the step pops
it, records the attempt, changes nothing else, and the run terminates. -/
theorem C9_fetch_failure_skip_witness :
    (∀ t f, aliasFetch t = some f → f.links.length ≤ 0) ∧
    crawlStep aliasFetch 2 ⟨[("z", 0)], [], [], []⟩ =
      (⟨[], [], [], ["z"]⟩ : CrawlState) ∧
    ∃ n, ((crawlStep aliasFetch 2)^[n]
      (⟨[("z", 0)], [], [], []⟩ : CrawlState)).queue = [] := by
  have hL : ∀ t f, aliasFetch t = some f → f.links.length ≤ 0 := by
    intro t f h
    unfold aliasFetch at h
    split at h
    all_goals simp_all
    all_goals simp [← h]
  refine ⟨hL, ?_, (C9_fetch_failure_skip aliasFetch 2 0 hL).2 _⟩
  have hstep := (C9_fetch_failure_skip aliasFetch 2 0 hL).1
    ⟨[("z", 0)], [], [], []⟩ "z" 0 [] rfl (by simp) (by omega) (by decide)
  simpa using hstep

/-- C10: in the shortest-path output graph, node ids are deduplicated while
every path node id is represented, each node's group is 1 exactly when its
own title equals the requested source or target and 2 otherwise, and the
edge list is exactly one from/to pair per relationship of the path. -/
theorem C10_shortest_path_groups (source target : String) (ns : List StoreNode)
    (rs : List (Nat × Nat)) :
    ((shortest_path_graph source target ns rs).nodes.map (fun v => v.id)).Nodup ∧
    (∀ v ∈ (shortest_path_graph source target ns rs).nodes,
      v.group = if v.label = source ∨ v.label = target then 1 else 2) ∧
    (∀ n ∈ ns, StoreNode.id n ∈
      (shortest_path_graph source target ns rs).nodes.map (fun v => v.id)) ∧
    (shortest_path_graph source target ns rs).edges = rs.map (fun r => ⟨r.1, r.2⟩) ∧
    (shortest_path_graph source target ns rs).edges.length = rs.length :=
  ⟨addPathNodes_nodup source target ns [] [] rfl (by simp),
   addPathNodes_groups source target ns [] [] (by simp),
   addPathNodes_covers source target ns [] [] rfl,
   rfl,
   by simp [shortest_path_graph]⟩

/-- Witness for C10 on a two-node path from "s" to "m". -/
theorem C10_shortest_path_groups_witness :
    (⟨5, "s", 1⟩ : VisNode) ∈ (shortest_path_graph "s" "t" [⟨5, "s"⟩, ⟨6, "m"⟩]
      [(5, 6)]).nodes ∧
    (⟨5, "s", 1⟩ : VisNode).group =
      if ("s" : String) = "s" ∨ ("s" : String) = "t" then 1 else 2 :=
  ⟨by decide,
   (C10_shortest_path_groups "s" "t" [⟨5, "s"⟩, ⟨6, "m"⟩] [(5, 6)]).2.1
     ⟨5, "s", 1⟩ (by decide)⟩

/-- C5 counterexample: the pending page "X" — created as a link target, url
unset, never fetched — is matched by the title lookup, so the endpoint
returns a graph (center plus its incoming neighbor), not a 404. -/
theorem C5_pending_title_counterexample :
    (∃ p ∈ pendingPages, p.title = "X" ∧ p.url = none) ∧
    get_graph_data pendingPages pendingLinks "X" 50 =
      Except.ok ⟨[⟨1, "X", 1⟩, ⟨0, "A", 3⟩], [⟨0, 1⟩]⟩ ∧
    get_graph_data pendingPages pendingLinks "X" 50 ≠ Except.error 404 := by
  have heq : get_graph_data pendingPages pendingLinks "X" 50 =
      Except.ok ⟨[⟨1, "X", 1⟩, ⟨0, "A", 3⟩], [⟨0, 1⟩]⟩ := by rfl
  refine ⟨⟨⟨1, "X", none⟩, by decide, rfl, rfl⟩, heq, ?_⟩
  rw [heq]
  intro hc
  exact Except.noConfusion hc

/-- C5 amended: the graph endpoint answers 404 exactly when no Page node with
the requested title exists in the store at all — a pending (url-unset) page
is still found and yields a graph — and a found page never yields an empty
graph, since the center node is always present. -/
theorem C5_not_found_amended (pages : List StorePage) (links : List (Nat × Nat))
    (page : String) (requestedLimit : Int) (hp : page ≠ "") :
    (get_graph_data pages links page requestedLimit = Except.error 404 ↔
      pageByTitle pages page = none) ∧
    (∀ g, get_graph_data pages links page requestedLimit = Except.ok g →
      g.nodes ≠ []) := by
  unfold get_graph_data
  rw [if_neg hp]
  cases hfind : pageByTitle pages page with
  | none => simp
  | some p =>
      constructor
      · simp
      · intro g hg
        simp only at hg
        injection hg with hg
        rw [← hg]
        have h10 : (10 : Int) ≤ usedLimit requestedLimit := le_max_left _ _
        exact assembleGraph_nonempty _ _ _ _ (by omega)

/-- Witness for C5 amended at a concrete store and title. -/
theorem C5_not_found_amended_witness :
    ("Y" : String) ≠ "" ∧
    (get_graph_data pendingPages pendingLinks "Y" 50 = Except.error 404 ↔
      pageByTitle pendingPages "Y" = none) :=
  ⟨by decide, (C5_not_found_amended pendingPages pendingLinks "Y" 50 (by decide)).1⟩

/-- C6 counterexample: the requested title "a" resolves to the distinct
canonical title "A"; only "A" is marked visited, so a duplicated frontier
entry for "a" is fetched again and fully processed again in the same run. -/
theorem C6_alias_refetch_counterexample :
    aliasFetch "a" = some ⟨"A", [], "u"⟩ ∧
    ((crawlStep aliasFetch 2)^[2] aliasStart).fetched.count "a" = 2 ∧
    ((crawlStep aliasFetch 2)^[2] aliasStart).ops.count
      (DbOp.mergePage "A" [("url", "u")]) = 2 := by
  refine ⟨rfl, rfl, rfl⟩

/-- C6 amended: on a successful fetch the crawler marks the canonical
returned title visited, not the requested title; a title whose canonical form
equals itself is fetched at most once per run; a requested title that differs
from its canonical form is suppressed only by visited membership at pop
time, so it may be fetched and processed more than once. -/
theorem C6_canonical_visited_amended (fetch : String → Option Fetched)
    (maxDepth : Nat) :
    (∀ s : CrawlState, ∀ title depth rest f, s.queue = (title, depth) :: rest →
      title ∉ s.visited → depth ≤ maxDepth → fetch title = some f →
      (crawlStep fetch maxDepth s).visited = s.visited.insert f.realTitle ∧
      (title ≠ f.realTitle → title ∉ (crawlStep fetch maxDepth s).visited)) ∧
    (∀ t f, fetch t = some f → f.realTitle = t →
      ∀ s : CrawlState, s.fetched = [] → ∀ n,
        ((crawlStep fetch maxDepth)^[n] s).fetched.count t ≤ 1) := by
  constructor
  · intro s title depth rest f hq hv hd hfet
    rw [crawlStep_process fetch maxDepth s title depth rest f hq hv hd hfet]
    refine ⟨rfl, ?_⟩
    intro hne hc
    rcases List.mem_insert_iff.mp hc with h | h
    · exact hne h
    · exact hv h
  · intro t f hft hcan s hf0 n
    exact crawl_fetch_once fetch maxDepth t f hft hcan s hf0 n

/-- Witness for C6 amended on the cyclic graph where "a" is its own
canonical title. -/
theorem C6_canonical_visited_amended_witness :
    cycleFetch "a" = some ⟨"a", ["b"], "ua"⟩ ∧
    ((crawlStep cycleFetch 2)^[5]
      (⟨[("a", 0), ("a", 0)], [], [], []⟩ : CrawlState)).fetched.count "a" ≤ 1 :=
  ⟨rfl, (C6_canonical_visited_amended cycleFetch 2).2 "a" ⟨"a", ["b"], "ua"⟩ rfl rfl
    ⟨[("a", 0), ("a", 0)], [], [], []⟩ rfl 5⟩

/-- C7 counterexample: the page merge the crawler issues carries only the url
property; no merge sets a summary, truncated or otherwise. -/
theorem C7_no_summary_counterexample :
    DbOp.mergePage "A" [("url", "u")] ∈ (crawlStep aliasFetch 2 aliasStart).ops ∧
    ¬ (∀ op ∈ (crawlStep aliasFetch 2 aliasStart).ops,
        ∀ ttl props, op = DbOp.mergePage ttl props →
          ∃ s, ("summary", s) ∈ props) := by
  constructor
  · decide
  · intro h
    rcases h (DbOp.mergePage "A" [("url", "u")]) (by decide) "A" [("url", "u")] rfl
      with ⟨s, hs⟩
    rw [List.mem_singleton] at hs
    injection hs with h1 h2
    exact absurd h1 (by decide)

/-- C7 amended: every page merge performed by the crawler sets exactly the
url property and nothing else; on a successful fetch the canonical title is
merged with the page url, and the requested title is merged with the same
url when it differs from the canonical title. -/
theorem C7_merge_url_only_amended (fetch : String → Option Fetched)
    (maxDepth : Nat) :
    (∀ s : CrawlState, s.ops = [] → ∀ n,
      ∀ op ∈ ((crawlStep fetch maxDepth)^[n] s).ops,
        ∀ ttl props, op = DbOp.mergePage ttl props → ∃ u, props = [("url", u)]) ∧
    (∀ s : CrawlState, ∀ title depth rest f, s.queue = (title, depth) :: rest →
      title ∉ s.visited → depth ≤ maxDepth → fetch title = some f →
      DbOp.mergePage f.realTitle [("url", f.url)] ∈ (crawlStep fetch maxDepth s).ops ∧
      (title ≠ f.realTitle →
        DbOp.mergePage title [("url", f.url)] ∈ (crawlStep fetch maxDepth s).ops)) := by
  constructor
  · intro s h0 n
    exact crawl_ops_url_only fetch maxDepth s h0 n
  · intro s title depth rest f hq hv hd hfet
    rw [crawlStep_process fetch maxDepth s title depth rest f hq hv hd hfet]
    constructor
    · simp
    · intro hne
      simp [hne]

/-- Witness for C7 amended: the first merge of the alias run has url-only
properties. -/
theorem C7_merge_url_only_amended_witness :
    aliasStart.ops = [] ∧
    ∃ u, ([("url", "u")] : List (String × String)) = [("url", u)] :=
  ⟨rfl, (C7_merge_url_only_amended aliasFetch 2).1 aliasStart rfl 1
    (DbOp.mergePage "A" [("url", "u")]) (by decide) "A" [("url", "u")] rfl⟩

/-- C8: the custom-query pass-through hands the text to the store exactly
when its uppercased, stripped form begins with MATCH, WITH, RETURN or
OPTIONAL; any other text is rejected with a 400 before any store execution;
in particular "DELETE (n) DETACH DELETE n" is rejected and a MATCH query is
passed through unchanged. -/
theorem C8_read_only_guard (cypher : String) :
    (execute_custom_query cypher = Except.ok cypher ↔
      readOnlyStart cypher = true) ∧
    (readOnlyStart cypher = false →
      execute_custom_query cypher = Except.error 400) ∧
    execute_custom_query "DELETE (n) DETACH DELETE n" = Except.error 400 ∧
    execute_custom_query "MATCH (n) RETURN n" = Except.ok "MATCH (n) RETURN n" := by
  have h1 : execute_custom_query cypher = Except.ok cypher ↔
      readOnlyStart cypher = true := by
    unfold execute_custom_query
    by_cases he : cypher = ""
    · rw [if_pos he]
      constructor
      · intro h; cases h
      · intro h
        rw [he] at h
        rw [(rfl : readOnlyStart "" = false)] at h
        cases h
    · rw [if_neg he]
      by_cases hr : readOnlyStart cypher = true
      · rw [if_pos hr]
        simp [hr]
      · rw [if_neg hr]
        constructor
        · intro h; cases h
        · intro h; exact absurd h hr
  have h2 : readOnlyStart cypher = false →
      execute_custom_query cypher = Except.error 400 := by
    intro hr
    unfold execute_custom_query
    by_cases he : cypher = ""
    · rw [if_pos he]
    · rw [if_neg he, if_neg (by simp [hr])]
  exact ⟨h1, h2, rfl, rfl⟩

/-- Witness for C8: a destructive query fails the read-only check and is
rejected. -/
theorem C8_read_only_guard_witness :
    readOnlyStart "DROP ALL" = false ∧
    execute_custom_query "DROP ALL" = Except.error 400 :=
  ⟨rfl, (C8_read_only_guard "DROP ALL").2.1 rfl⟩
